import Mathlib

/-!
Verification of the infix arithmetic parser
(src/enterprise_modules/rust_extensions/infix_parser/src/lib.rs).

Strings are modelled as their lists of characters and the Rust `Vec<String>`
of tokens as `List (List Char)`.  Every Rust panic site (out-of-range index,
failed `unwrap`, an explicit panic call) is embedded as an `Except` error
carrying a `Panic` value naming the site; the functions themselves are the
line-by-line translation of the source.
-/

/-- An exact fraction: integer numerator over a denominator that is positive
for every value this code constructs (a parsed literal has denominator
`10 ^ k` and the arithmetic below only ever multiplies denominators).  It is
kept unnormalized so that every operation is kernel-computable; the sign
tests in the operations read the numerator, which is the sign of the value
because the denominator is positive by construction. -/
structure Frac where
  num : Int
  den : Nat
deriving DecidableEq, Repr

/-- Model of an IEEE binary64 value as this library uses it: a finite value
is carried exactly as a fraction (every literal and arithmetic operation the
verified inputs exercise is exact in binary64), and the infinities and NaN
are explicit.  The model has no signed zero and no rounding; no statement
proved below depends on either. -/
inductive F64 where
  | finite (q : Frac)
  | inf
  | negInf
  | nan
deriving DecidableEq, Repr

/-- IEEE negation, as used for the unary minus fold (`-*n`). -/
def F64.neg : F64 → F64
  | .finite q => .finite ⟨-q.num, q.den⟩
  | .inf => .negInf
  | .negInf => .inf
  | .nan => .nan

/-- IEEE addition on the model (`a + b` in `simplify`). -/
def F64.add : F64 → F64 → F64
  | .nan, _ => .nan
  | _, .nan => .nan
  | .finite a, .finite b => .finite ⟨a.num * b.den + b.num * a.den, a.den * b.den⟩
  | .inf, .negInf => .nan
  | .negInf, .inf => .nan
  | .inf, _ => .inf
  | _, .inf => .inf
  | .negInf, _ => .negInf
  | _, .negInf => .negInf

/-- IEEE subtraction (`a - b` in `simplify`); in IEEE, `a - b = a + (-b)`
exactly. -/
def F64.sub (a b : F64) : F64 := F64.add a (F64.neg b)

/-- IEEE multiplication (`a * b` in `simplify`). -/
def F64.mul : F64 → F64 → F64
  | .nan, _ => .nan
  | _, .nan => .nan
  | .finite a, .finite b => .finite ⟨a.num * b.num, a.den * b.den⟩
  | .inf, .inf => .inf
  | .inf, .negInf => .negInf
  | .negInf, .inf => .negInf
  | .negInf, .negInf => .inf
  | .inf, .finite b => if 0 < b.num then .inf else if b.num < 0 then .negInf else .nan
  | .finite a, .inf => if 0 < a.num then .inf else if a.num < 0 then .negInf else .nan
  | .negInf, .finite b => if 0 < b.num then .negInf else if b.num < 0 then .inf else .nan
  | .finite a, .negInf => if 0 < a.num then .negInf else if a.num < 0 then .inf else .nan

/-- IEEE division (`a / b` in `simplify`): a nonzero finite value divided by
zero gives a signed infinity, `0 / 0` gives NaN. -/
def F64.div : F64 → F64 → F64
  | .nan, _ => .nan
  | _, .nan => .nan
  | .finite a, .finite b =>
    if b.num = 0 then (if 0 < a.num then .inf else if a.num < 0 then .negInf else .nan)
    else .finite ⟨a.num * b.den * b.num.sign, a.den * b.num.natAbs⟩
  | .finite _, .inf => .finite ⟨0, 1⟩
  | .finite _, .negInf => .finite ⟨0, 1⟩
  | .inf, .inf => .nan
  | .inf, .negInf => .nan
  | .negInf, .inf => .nan
  | .negInf, .negInf => .nan
  | .inf, .finite b => if b.num < 0 then .negInf else .inf
  | .negInf, .finite b => if b.num < 0 then .inf else .negInf

/-- The test `c.is_ascii_digit() || c == '.'` — the characters accumulated into a
numeral token. -/
def isNumChar (c : Char) : Bool := c.isDigit || c == '.'

/-- The loop body of `tokenize`: `current` is the pending numeral
accumulator.  Whitespace is skipped with `continue`, leaving `current`
untouched; a numeral character is pushed onto `current`; any other character
first flushes a non-empty `current` and then becomes its own token; a
non-empty `current` is flushed at end of input. -/
def tokenizeAux : List Char → List Char → List (List Char)
  | current, [] => if current.isEmpty then [] else [current]
  | current, c :: cs =>
    if c.isWhitespace then tokenizeAux current cs
    else if isNumChar c then tokenizeAux (current ++ [c]) cs
    else if current.isEmpty then [c] :: tokenizeAux [] cs
    else current :: [c] :: tokenizeAux [] cs

/-- Function `tokenize` from the source: scan the characters with an empty pending
accumulator. -/
def tokenize (s : List Char) : List (List Char) := tokenizeAux [] s

/-- The value of a list of decimal digit characters read left to right, as
an accumulating fold. -/
def digitsVal (l : List Char) : Nat :=
  l.foldl (fun n c => 10 * n + (c.toNat - 48)) 0

/-- Model of Rust `str::parse::<f64>` on the token shapes this tokenizer can
produce (a non-empty run of digit or dot characters, or a single character
that is neither): it succeeds exactly when the token consists of digits and
at most one dot with at least one digit, and the value is read exactly (no
rounding; the verified inputs are exactly representable).  Tokens of any
other shape (such as a lone operator character) fail, as they do under
Rust's float grammar. -/
def parseF64 (t : List Char) : Option F64 :=
  if (∀ c ∈ t, isNumChar c = true) ∧ (∃ c ∈ t, c.isDigit = true) ∧
      t.countP (fun c => c == '.') ≤ 1 then
    let intPart := t.takeWhile (fun c => c != '.')
    let fracPart := (t.dropWhile (fun c => c != '.')).drop 1
    some (.finite ⟨(digitsVal intPart : Int) * 10 ^ fracPart.length + digitsVal fracPart,
      10 ^ fracPart.length⟩)
  else none

/-- The AST from the source (`enum Expr`): a literal, a unary node, or a
binary node; operators are carried as bare characters exactly as in the
source. -/
inductive Expr where
  | Number (value : F64)
  | Unary (op : Char) (expr : Expr)
  | Binary (op : Char) (left : Expr) (right : Expr)
deriving DecidableEq, Repr

/-- The panic exits of the source, one constructor per site: an out-of-range
`tokens[i]` index, `chars().next().unwrap()` on an empty token,
`token.parse::<f64>().unwrap()` on a token that is not a float, the
explicit panic for the unexpected token in place of a closing paren, the
explicit panic for tokens left over after the outermost expression, and the
two bodies marked unreachable in `simplify`.  `fuel` is an artifact of
embedding the source's general recursion with a fuel parameter; the entry
point supplies more fuel than any input can consume. -/
inductive Panic where
  | indexOutOfRange
  | emptyTokenChars
  | floatConvFail
  | expectedCloseParen
  | trailingTokens
  | unreachableOp
  | fuel
deriving DecidableEq, Repr

/-- Selector for the five mutually recursive parse functions of the source
(plus the two while-loop bodies), packed into one type so that the whole
recursive descent is a single function structurally recursive on fuel and
therefore kernel-computable. -/
inductive ParseCall where
  | addSub (tokens : List (List Char)) (pos : Nat)
  | addSubGo (tokens : List (List Char)) (node : Expr) (pos : Nat)
  | mulDiv (tokens : List (List Char)) (pos : Nat)
  | mulDivGo (tokens : List (List Char)) (node : Expr) (pos : Nat)
  | unary (tokens : List (List Char)) (pos : Nat)
  | primary (tokens : List (List Char)) (pos : Nat)
  | expression (tokens : List (List Char))

/-- The recursive descent of the source, one arm per source function.
`addSub`/`mulDiv` run the head parse and enter their while-loop
(`addSubGo`/`mulDivGo`: while the next token starts with the level's
operators, consume it and fold the next operand into a left-leaning binary
node).  `unary`, when in bounds and the next token starts with `+` or `-`,
consumes it and recurses, wrapping in a unary node, and otherwise falls
through to `primary`.  `primary` panics on an out-of-range `tokens[pos]`;
on `"("` it parses a full expression over the tail slice
`&tokens[pos + 1..]`, rebases the returned position by `pos + 1`, and
requires the token there to be `")"` (`tokens[p]` again panicking when out
of range); otherwise the token must convert to a float.  `expression` is
`parse_add_sub` at position 0. -/
def parseStep : Nat → ParseCall → Except Panic (Expr × Nat)
  | 0, _ => .error .fuel
  | f + 1, c =>
    match c with
    | .addSub tokens pos =>
      match parseStep f (.mulDiv tokens pos) with
      | .error e => .error e
      | .ok (node, p) => parseStep f (.addSubGo tokens node p)
    | .addSubGo tokens node pos =>
      match tokens[pos]? with
      | none => .ok (node, pos)
      | some tok =>
        match tok.head? with
        | none => .error .emptyTokenChars
        | some op =>
          if op == '+' || op == '-' then
            match parseStep f (.mulDiv tokens (pos + 1)) with
            | .error e => .error e
            | .ok (rhs, np) => parseStep f (.addSubGo tokens (.Binary op node rhs) np)
          else .ok (node, pos)
    | .mulDiv tokens pos =>
      match parseStep f (.unary tokens pos) with
      | .error e => .error e
      | .ok (node, p) => parseStep f (.mulDivGo tokens node p)
    | .mulDivGo tokens node pos =>
      match tokens[pos]? with
      | none => .ok (node, pos)
      | some tok =>
        match tok.head? with
        | none => .error .emptyTokenChars
        | some op =>
          if op == '*' || op == '/' then
            match parseStep f (.unary tokens (pos + 1)) with
            | .error e => .error e
            | .ok (rhs, np) => parseStep f (.mulDivGo tokens (.Binary op node rhs) np)
          else .ok (node, pos)
    | .unary tokens pos =>
      match tokens[pos]? with
      | none => parseStep f (.primary tokens pos)
      | some tok =>
        match tok.head? with
        | none => .error .emptyTokenChars
        | some op =>
          if op == '+' || op == '-' then
            match parseStep f (.unary tokens (pos + 1)) with
            | .error e => .error e
            | .ok (e, p) => .ok (.Unary op e, p)
          else parseStep f (.primary tokens pos)
    | .primary tokens pos =>
      match tokens[pos]? with
      | none => .error .indexOutOfRange
      | some token =>
        if token == ['('] then
          match parseStep f (.expression (tokens.drop (pos + 1))) with
          | .error e => .error e
          | .ok (e, p0) =>
            match tokens[p0 + (pos + 1)]? with
            | none => .error .indexOutOfRange
            | some t2 =>
              if t2 == [')'] then .ok (e, p0 + (pos + 1) + 1)
              else .error .expectedCloseParen
        else
          match parseF64 token with
          | none => .error .floatConvFail
          | some v => .ok (.Number v, pos + 1)
    | .expression tokens => parseStep f (.addSub tokens 0)

/-- Function `parse_add_sub` from the source. -/
def parse_add_sub (f : Nat) (tokens : List (List Char)) (pos : Nat) :
    Except Panic (Expr × Nat) := parseStep f (.addSub tokens pos)

/-- Function `parse_mul_div` from the source. -/
def parse_mul_div (f : Nat) (tokens : List (List Char)) (pos : Nat) :
    Except Panic (Expr × Nat) := parseStep f (.mulDiv tokens pos)

/-- Function `parse_unary` from the source. -/
def parse_unary (f : Nat) (tokens : List (List Char)) (pos : Nat) :
    Except Panic (Expr × Nat) := parseStep f (.unary tokens pos)

/-- Function `parse_primary` from the source. -/
def parse_primary (f : Nat) (tokens : List (List Char)) (pos : Nat) :
    Except Panic (Expr × Nat) := parseStep f (.primary tokens pos)

/-- Function `parse_expression` from the source: `parse_add_sub` at position 0. -/
def parse_expression (f : Nat) (tokens : List (List Char)) :
    Except Panic (Expr × Nat) := parseStep f (.expression tokens)

/-- Function `simplify` from the source: fold any unary or binary node whose
(recursively simplified) operands are all literals; the operator matches
fall to `unreachable!()` on any character outside the enumerated sets. -/
def simplify : Expr → Except Panic Expr
  | .Number n => .ok (.Number n)
  | .Unary op e =>
    match simplify e with
    | .error er => .error er
    | .ok e' =>
      match e' with
      | .Number n =>
        match op with
        | '+' => .ok (.Number n)
        | '-' => .ok (.Number (F64.neg n))
        | _ => .error .unreachableOp
      | _ => .ok (.Unary op e')
  | .Binary op l r =>
    match simplify l with
    | .error er => .error er
    | .ok l' =>
      match simplify r with
      | .error er => .error er
      | .ok r' =>
        match l', r' with
        | .Number a, .Number b =>
          match op with
          | '+' => .ok (.Number (F64.add a b))
          | '-' => .ok (.Number (F64.sub a b))
          | '*' => .ok (.Number (F64.mul a b))
          | '/' => .ok (.Number (F64.div a b))
          | _ => .error .unreachableOp
        | _, _ => .ok (.Binary op l' r')

/-- The generic tree value built by `to_py`: the Python dict with a `type`
tag and the type-specific fields, one constructor per tag. -/
inductive PyValue where
  | Number (value : F64)
  | Unary (op : Char) (expr : PyValue)
  | Binary (op : Char) (left : PyValue) (right : PyValue)
deriving DecidableEq, Repr

/-- Function `to_py` from the source: the structure-preserving conversion of the AST
into the tagged generic value. -/
def to_py : Expr → PyValue
  | .Number n => .Number n
  | .Unary op e => .Unary op (to_py e)
  | .Binary op l r => .Binary op (to_py l) (to_py r)

/-- The `#[pyfunction] parse_infix` entry point: tokenize, parse, panic if
tokens remain, simplify, serialize.  The fuel handed to the parser exceeds
what any input can consume (each call layer consumes at least one token or
moves to a strictly later grammar level). -/
def parse_infix (s : List Char) : Except Panic PyValue :=
  let tokens := tokenize s
  match parse_expression (16 * (tokens.length + 1)) tokens with
  | .error e => .error e
  | .ok (e, pos) =>
    if pos ≠ tokens.length then .error .trailingTokens
    else
      match simplify e with
      | .error er => .error er
      | .ok simplified => .ok (to_py simplified)

/-- The well-formedness the parser guarantees: the operator of every unary
node is `+` or `-` and of every binary node one of the four arithmetic
symbols.  This is what keeps `simplify` away from its `unreachable!()`
arms. -/
def opsValid : Expr → Bool
  | .Number _ => true
  | .Unary op e => (op == '+' || op == '-') && opsValid e
  | .Binary op l r =>
    (op == '+' || op == '-' || op == '*' || op == '/') && opsValid l && opsValid r

/-- The well-formedness a parse call carries into `parseStep`: the two
while-loop states hold an accumulated node, which must itself be
well-formed; the remaining calls carry none. -/
def callNodeValid : ParseCall → Bool
  | .addSubGo _ node _ => opsValid node
  | .mulDivGo _ node _ => opsValid node
  | _ => true

/-- The token list a parse call reads. -/
def callTokens : ParseCall → List (List Char)
  | .addSub tokens _ => tokens
  | .addSubGo tokens _ _ => tokens
  | .mulDiv tokens _ => tokens
  | .mulDivGo tokens _ _ => tokens
  | .unary tokens _ => tokens
  | .primary tokens _ => tokens
  | .expression tokens => tokens

/-- Modelled from the words of claim C8, for comparison with the source's
`tokenize`: whitespace characters produce no tokens, each maximal
consecutive run of digit or dot characters becomes exactly one numeral
token, and every other character becomes its own single-character token. -/
def tokenizeSpecC8 : List Char → List (List Char)
  | [] => []
  | c :: cs =>
    if c.isWhitespace then tokenizeSpecC8 cs
    else if isNumChar c then
      (c :: cs.takeWhile isNumChar) :: tokenizeSpecC8 (cs.dropWhile isNumChar)
    else [c] :: tokenizeSpecC8 cs
termination_by l => l.length
decreasing_by
  · simp
  · have h : ∀ (l : List Char), (l.dropWhile isNumChar).length ≤ l.length := by
      intro l
      induction l with
      | nil => simp [List.dropWhile]
      | cons x xs ih =>
        rw [List.dropWhile_cons]
        by_cases hx : isNumChar x = true
        · simp only [hx, if_true]
          exact Nat.le_succ_of_le ih
        · simp [hx]
    exact Nat.lt_succ_of_le (h cs)
  · simp

/-- Lemma: `tokenize` never looks at whitespace — deleting the whitespace characters
of the input first changes nothing, from any accumulator state. -/
theorem tokenizeAux_filter (s : List Char) :
    ∀ current : List Char,
      tokenizeAux current (s.filter (fun c => !c.isWhitespace)) = tokenizeAux current s := by
  induction s with
  | nil => intro current; rfl
  | cons c cs ih =>
    intro current
    rw [List.filter_cons]
    by_cases hw : c.isWhitespace
    · simp [hw, tokenizeAux, ih]
    · by_cases hn : isNumChar c
      · simp [hw, hn, tokenizeAux, ih]
      · by_cases he : current.isEmpty
        · simp [hw, hn, he, tokenizeAux, ih]
        · simp [hw, hn, he, tokenizeAux, ih]

/-- On whitespace-free input the accumulator-passing scan of the source
produces the pending run followed by the maximal-run tokenization of the
rest. -/
theorem tokenizeAux_runs :
    ∀ (s : List Char), (∀ c ∈ s, c.isWhitespace = false) →
    ∀ current : List Char,
      tokenizeAux current s =
        if current.isEmpty then tokenizeSpecC8 s
        else (current ++ s.takeWhile isNumChar) :: tokenizeSpecC8 (s.dropWhile isNumChar) := by
  intro s
  induction s with
  | nil =>
    intro _ current
    by_cases he : current.isEmpty
    · simp [tokenizeAux, tokenizeSpecC8, he]
    · simp [tokenizeAux, tokenizeSpecC8, he]
  | cons c cs ih =>
    intro hs current
    have hw : c.isWhitespace = false := hs c (List.mem_cons_self c cs)
    have hs' : ∀ x ∈ cs, x.isWhitespace = false := fun x hx => hs x (List.mem_cons_of_mem c hx)
    by_cases hn : isNumChar c
    · rw [show tokenizeAux current (c :: cs) = tokenizeAux (current ++ [c]) cs by
        simp [tokenizeAux, hw, hn]]
      rw [ih hs' (current ++ [c])]
      have hne : (current ++ [c]).isEmpty = false := by simp
      rw [hne]
      simp only [Bool.false_eq_true, if_false]
      by_cases he : current.isEmpty
      · have hcur : current = [] := List.isEmpty_iff.mp he
        subst hcur
        simp [tokenizeSpecC8, hw, hn, List.takeWhile_cons_of_pos hn,
          List.dropWhile_cons_of_pos hn, he]
      · simp [he, List.takeWhile_cons_of_pos hn, List.dropWhile_cons_of_pos hn]
    · have htw : (c :: cs).takeWhile isNumChar = [] := by
        rw [List.takeWhile_cons]
        simp [hn]
      have hdw : (c :: cs).dropWhile isNumChar = c :: cs := by
        rw [List.dropWhile_cons]
        simp [hn]
      have hrec := ih hs' []
      simp only [List.isEmpty_nil, if_true] at hrec
      by_cases he : current.isEmpty
      · have hcur : current = [] := List.isEmpty_iff.mp he
        subst hcur
        simp [tokenizeAux, tokenizeSpecC8, hw, hn, hrec]
      · simp [tokenizeAux, tokenizeSpecC8, hw, hn, he, hrec, htw, hdw]

/-- Every token the scan emits is non-empty: the pending run is only
flushed when non-empty, and single-character tokens are never empty. -/
theorem tokenizeAux_ne_nil :
    ∀ (s current : List Char), ∀ t ∈ tokenizeAux current s, t ≠ [] := by
  intro s
  induction s with
  | nil =>
    intro current t ht
    rw [tokenizeAux] at ht
    by_cases he : current.isEmpty
    · simp [he] at ht
    · simp only [he, Bool.false_eq_true, if_false, List.mem_singleton] at ht
      subst ht
      intro hc
      rw [hc] at he
      simp at he
  | cons c cs ih =>
    intro current t ht
    rw [tokenizeAux] at ht
    by_cases hw : c.isWhitespace
    · simp only [hw, if_true] at ht
      exact ih current t ht
    · by_cases hn : isNumChar c
      · simp only [hw, hn, Bool.false_eq_true, if_false, if_true] at ht
        exact ih (current ++ [c]) t ht
      · by_cases he : current.isEmpty
        · simp only [hw, hn, he, Bool.false_eq_true, if_false, if_true,
            List.mem_cons] at ht
          rcases ht with h | h
          · subst h; simp
          · exact ih [] t h
        · simp only [hw, hn, he, Bool.false_eq_true, if_false,
            List.mem_cons] at ht
          rcases ht with h | h | h
          · subst h
            intro hc
            rw [hc] at he
            simp at he
          · subst h; simp
          · exact ih [] t h

/-- Reading `l[i]? = some x` means `x` is a member of `l`. -/
theorem mem_of_getElem?_eq_some {a : Type} {l : List a} {i : Nat} {x : a}
    (h : l[i]? = some x) : x ∈ l := by
  have hi : i < l.length := by
    by_contra hlt
    rw [List.getElem?_eq_none (by omega)] at h
    exact Option.noConfusion h
  rw [List.getElem?_eq_getElem hi] at h
  have hm := List.getElem_mem hi
  rw [Option.some.injEq] at h
  rw [← h]
  exact hm

/-- Any expression a parse call returns is well-formed: every operator the
parser writes into a node was drawn from the checked sets. -/
theorem parseStep_opsValid :
    ∀ (f : Nat) (c : ParseCall), callNodeValid c = true →
      ∀ e p, parseStep f c = .ok (e, p) → opsValid e = true := by
  intro f
  induction f with
  | zero =>
    intro c _ e p h
    rw [parseStep] at h
    exact Except.noConfusion h
  | succ f ih =>
    intro c hc e p h
    cases c with
    | addSub tokens pos =>
      simp only [parseStep] at h
      split at h
      · exact Except.noConfusion h
      · rename_i node p1 heq
        have hnode := ih (.mulDiv tokens pos) rfl node p1 heq
        exact ih (.addSubGo tokens node p1) hnode e p h
    | addSubGo tokens node pos =>
      have hcn : opsValid node = true := hc
      simp only [parseStep] at h
      split at h
      · simp only [Except.ok.injEq, Prod.mk.injEq] at h
        obtain ⟨h1, h2⟩ := h
        subst h1
        exact hcn
      · rename_i tok heqtok
        split at h
        · exact Except.noConfusion h
        · rename_i op hhd
          split at h
          · rename_i hif
            split at h
            · exact Except.noConfusion h
            · rename_i rhs np heq
              have hrhs := ih (.mulDiv tokens (pos + 1)) rfl rhs np heq
              have h4 : (op == '+' || op == '-' || op == '*' || op == '/') = true := by
                rcases Bool.or_eq_true_iff.mp hif with h5 | h5 <;> simp [h5]
              have hvalid : opsValid (.Binary op node rhs) = true := by
                simp [opsValid, h4, hcn, hrhs]
              exact ih (.addSubGo tokens (.Binary op node rhs) np) hvalid e p h
          · simp only [Except.ok.injEq, Prod.mk.injEq] at h
            obtain ⟨h1, h2⟩ := h
            subst h1
            exact hcn
    | mulDiv tokens pos =>
      simp only [parseStep] at h
      split at h
      · exact Except.noConfusion h
      · rename_i node p1 heq
        have hnode := ih (.unary tokens pos) rfl node p1 heq
        exact ih (.mulDivGo tokens node p1) hnode e p h
    | mulDivGo tokens node pos =>
      have hcn : opsValid node = true := hc
      simp only [parseStep] at h
      split at h
      · simp only [Except.ok.injEq, Prod.mk.injEq] at h
        obtain ⟨h1, h2⟩ := h
        subst h1
        exact hcn
      · rename_i tok heqtok
        split at h
        · exact Except.noConfusion h
        · rename_i op hhd
          split at h
          · rename_i hif
            split at h
            · exact Except.noConfusion h
            · rename_i rhs np heq
              have hrhs := ih (.unary tokens (pos + 1)) rfl rhs np heq
              have h4 : (op == '+' || op == '-' || op == '*' || op == '/') = true := by
                rcases Bool.or_eq_true_iff.mp hif with h5 | h5 <;> simp [h5]
              have hvalid : opsValid (.Binary op node rhs) = true := by
                simp [opsValid, h4, hcn, hrhs]
              exact ih (.mulDivGo tokens (.Binary op node rhs) np) hvalid e p h
          · simp only [Except.ok.injEq, Prod.mk.injEq] at h
            obtain ⟨h1, h2⟩ := h
            subst h1
            exact hcn
    | unary tokens pos =>
      simp only [parseStep] at h
      split at h
      · exact ih (.primary tokens pos) rfl e p h
      · rename_i tok heqtok
        split at h
        · exact Except.noConfusion h
        · rename_i op hhd
          split at h
          · rename_i hif
            split at h
            · exact Except.noConfusion h
            · rename_i e0 p0 heq
              have he0 := ih (.unary tokens (pos + 1)) rfl e0 p0 heq
              simp only [Except.ok.injEq, Prod.mk.injEq] at h
              obtain ⟨h1, h2⟩ := h
              subst h1
              simp [opsValid, hif, he0]
          · exact ih (.primary tokens pos) rfl e p h
    | primary tokens pos =>
      simp only [parseStep] at h
      split at h
      · exact Except.noConfusion h
      · rename_i token heqtok
        split at h
        · split at h
          · exact Except.noConfusion h
          · rename_i e0 p0 heq
            split at h
            · exact Except.noConfusion h
            · rename_i t2 heqt2
              split at h
              · simp only [Except.ok.injEq, Prod.mk.injEq] at h
                obtain ⟨h1, h2⟩ := h
                subst h1
                exact ih (.expression (tokens.drop (pos + 1))) rfl e0 p0 heq
              · exact Except.noConfusion h
        · split at h
          · exact Except.noConfusion h
          · rename_i v heqv
            simp only [Except.ok.injEq, Prod.mk.injEq] at h
            obtain ⟨h1, h2⟩ := h
            subst h1
            rfl
    | expression tokens =>
      simp only [parseStep] at h
      exact ih (.addSub tokens 0) rfl e p h

/-- When every token is non-empty, no parse call can reach the panic of
`chars().next().unwrap()`: the peek at the first character of the token at
the current position always finds a character. -/
theorem parseStep_no_emptyTok :
    ∀ (f : Nat) (c : ParseCall), (∀ t ∈ callTokens c, t ≠ []) →
      parseStep f c ≠ .error .emptyTokenChars := by
  intro f
  induction f with
  | zero =>
    intro c _ h
    rw [parseStep] at h
    exact Panic.noConfusion (Except.error.inj h)
  | succ f ih =>
    intro c hne h
    cases c with
    | addSub tokens pos =>
      have hne' : ∀ t ∈ tokens, t ≠ [] := hne
      simp only [parseStep] at h
      split at h
      · rename_i er heq
        rw [Except.error.inj h] at heq
        exact ih (.mulDiv tokens pos) hne' heq
      · rename_i node p1 heq
        exact ih (.addSubGo tokens node p1) hne' h
    | addSubGo tokens node pos =>
      have hne' : ∀ t ∈ tokens, t ≠ [] := hne
      simp only [parseStep] at h
      split at h
      · exact Except.noConfusion h
      · rename_i tok heqtok
        split at h
        · rename_i hhd
          have htok := hne' tok (mem_of_getElem?_eq_some heqtok)
          cases tok with
          | nil => exact htok rfl
          | cons a l => exact Option.noConfusion hhd
        · rename_i op hhd
          split at h
          · split at h
            · rename_i er heq
              rw [Except.error.inj h] at heq
              exact ih (.mulDiv tokens (pos + 1)) hne' heq
            · rename_i rhs np heq
              exact ih (.addSubGo tokens (.Binary op node rhs) np) hne' h
          · exact Except.noConfusion h
    | mulDiv tokens pos =>
      have hne' : ∀ t ∈ tokens, t ≠ [] := hne
      simp only [parseStep] at h
      split at h
      · rename_i er heq
        rw [Except.error.inj h] at heq
        exact ih (.unary tokens pos) hne' heq
      · rename_i node p1 heq
        exact ih (.mulDivGo tokens node p1) hne' h
    | mulDivGo tokens node pos =>
      have hne' : ∀ t ∈ tokens, t ≠ [] := hne
      simp only [parseStep] at h
      split at h
      · exact Except.noConfusion h
      · rename_i tok heqtok
        split at h
        · rename_i hhd
          have htok := hne' tok (mem_of_getElem?_eq_some heqtok)
          cases tok with
          | nil => exact htok rfl
          | cons a l => exact Option.noConfusion hhd
        · rename_i op hhd
          split at h
          · split at h
            · rename_i er heq
              rw [Except.error.inj h] at heq
              exact ih (.unary tokens (pos + 1)) hne' heq
            · rename_i rhs np heq
              exact ih (.mulDivGo tokens (.Binary op node rhs) np) hne' h
          · exact Except.noConfusion h
    | unary tokens pos =>
      have hne' : ∀ t ∈ tokens, t ≠ [] := hne
      simp only [parseStep] at h
      split at h
      · exact ih (.primary tokens pos) hne' h
      · rename_i tok heqtok
        split at h
        · rename_i hhd
          have htok := hne' tok (mem_of_getElem?_eq_some heqtok)
          cases tok with
          | nil => exact htok rfl
          | cons a l => exact Option.noConfusion hhd
        · rename_i op hhd
          split at h
          · split at h
            · rename_i er heq
              rw [Except.error.inj h] at heq
              exact ih (.unary tokens (pos + 1)) hne' heq
            · exact Except.noConfusion h
          · exact ih (.primary tokens pos) hne' h
    | primary tokens pos =>
      have hne' : ∀ t ∈ tokens, t ≠ [] := hne
      simp only [parseStep] at h
      split at h
      · exact Panic.noConfusion (Except.error.inj h)
      · rename_i token heqtok
        split at h
        · split at h
          · rename_i er heq
            rw [Except.error.inj h] at heq
            have hdrop : ∀ t ∈ tokens.drop (pos + 1), t ≠ [] :=
              fun t ht => hne' t (List.mem_of_mem_drop ht)
            exact ih (.expression (tokens.drop (pos + 1))) hdrop heq
          · rename_i e0 p0 heq
            split at h
            · exact Panic.noConfusion (Except.error.inj h)
            · rename_i t2 heqt2
              split at h
              · exact Except.noConfusion h
              · exact Panic.noConfusion (Except.error.inj h)
        · split at h
          · exact Panic.noConfusion (Except.error.inj h)
          · exact Except.noConfusion h
    | expression tokens =>
      have hne' : ∀ t ∈ tokens, t ≠ [] := hne
      simp only [parseStep] at h
      exact ih (.addSub tokens 0) hne' h

/-- A well-formed expression simplifies, without failure, all the way to a
single literal: the grammar has no variables, so every leaf is a number and
every fold applies. -/
theorem simplify_opsValid :
    ∀ (e : Expr), opsValid e = true → ∃ n, simplify e = .ok (.Number n) := by
  intro e
  induction e with
  | Number n => intro _; exact ⟨n, rfl⟩
  | Unary op e ih =>
    intro h
    rw [opsValid, Bool.and_eq_true] at h
    obtain ⟨hop, he⟩ := h
    obtain ⟨n, hn⟩ := ih he
    rcases Bool.or_eq_true_iff.mp hop with h1 | h1
    · have hop' : op = '+' := by simpa using h1
      subst hop'
      exact ⟨n, by rw [simplify, hn]; rfl⟩
    · have hop' : op = '-' := by simpa using h1
      subst hop'
      exact ⟨F64.neg n, by rw [simplify, hn]; rfl⟩
  | Binary op l r ihl ihr =>
    intro h
    rw [opsValid, Bool.and_eq_true, Bool.and_eq_true] at h
    obtain ⟨⟨hop, hl⟩, hr⟩ := h
    obtain ⟨a, ha⟩ := ihl hl
    obtain ⟨b, hb⟩ := ihr hr
    rcases Bool.or_eq_true_iff.mp hop with h1 | h1
    · rcases Bool.or_eq_true_iff.mp h1 with h2 | h2
      · rcases Bool.or_eq_true_iff.mp h2 with h3 | h3
        · have hop' : op = '+' := by simpa using h3
          subst hop'
          exact ⟨F64.add a b, by rw [simplify, ha, hb]; rfl⟩
        · have hop' : op = '-' := by simpa using h3
          subst hop'
          exact ⟨F64.sub a b, by rw [simplify, ha, hb]; rfl⟩
      · have hop' : op = '*' := by simpa using h2
        subst hop'
        exact ⟨F64.mul a b, by rw [simplify, ha, hb]; rfl⟩
    · have hop' : op = '/' := by simpa using h1
      subst hop'
      exact ⟨F64.div a b, by rw [simplify, ha, hb]; rfl⟩

/-- C1: the claim says every malformed input surfaces a single typed
ParseError and that an out-of-range token index never becomes an unhandled
crash.  The code has no error type at all: this theorem evaluates the
pipeline on the malformed input "1+" and shows the run ends at the
out-of-range `&tokens[pos]` access in `parse_primary` — in the Rust source
a panic that aborts the call, not a typed error value returned to the
caller. -/
theorem C1_malformed_input_reaches_index_panic :
    parse_infix "1+".toList = .error .indexOutOfRange := by rfl

/-- C2 counterexample: the claim says parseInfix("1 2") fails with
TrailingTokens.  It does not fail at all: whitespace is skipped without
terminating the pending numeral, so "1 2" tokenizes as the single numeral
"12" and the parse succeeds with the literal 12. -/
theorem C2_counterexample :
    parse_infix "1 2".toList = .ok (.Number (.finite ⟨12, 1⟩)) := by rfl

/-- C2, amended: "1+" and "(1+2" abort at the out-of-range token-index
access (end of input where a primary or the closing parenthesis was
expected), and "1.2.3" aborts at the failed float conversion of the numeral
token; "1 2" is not an error — it parses as the single numeral 12 — and the
failures are panic exits of the code, which has no typed error values. -/
theorem C2_amended_failure_modes :
    parse_infix "1+".toList = .error .indexOutOfRange ∧
    parse_infix "(1+2".toList = .error .indexOutOfRange ∧
    parse_infix "1 2".toList = .ok (.Number (.finite ⟨12, 1⟩)) ∧
    parse_infix "1.2.3".toList = .error .floatConvFail :=
  ⟨rfl, rfl, rfl, rfl⟩

/-- C3: multiplicative operators bind tighter than additive ones and
parentheses override that precedence — "2+3*4" simplifies to the literal
14 and "(2+3)*4" to the literal 20. -/
theorem C3_precedence :
    parse_infix "2+3*4".toList = .ok (.Number (.finite ⟨14, 1⟩)) ∧
    parse_infix "(2+3)*4".toList = .ok (.Number (.finite ⟨20, 1⟩)) :=
  ⟨rfl, rfl⟩

/-- C4: equal-precedence operators group left-associative — "10-3-2" parses
as (10-3)-2 and simplifies to the literal 5, which is not the literal 9
that right grouping would give. -/
theorem C4_left_associativity :
    parse_infix "10-3-2".toList = .ok (.Number (.finite ⟨5, 1⟩)) ∧
    PyValue.Number (F64.finite ⟨5, 1⟩) ≠ PyValue.Number (F64.finite ⟨9, 1⟩) :=
  ⟨rfl, by decide⟩

/-- C5: prefix unary operators chain by right recursion — both "--5" and
"-+-5" parse and simplify to the literal 5. -/
theorem C5_unary_chaining :
    parse_infix "--5".toList = .ok (.Number (.finite ⟨5, 1⟩)) ∧
    parse_infix "-+-5".toList = .ok (.Number (.finite ⟨5, 1⟩)) :=
  ⟨rfl, rfl⟩

/-- C6: folding a division of two literals uses floating-point semantics —
"1/0" does not fail, it simplifies to a literal holding positive
infinity. -/
theorem C6_division_by_zero_infinity :
    parse_infix "1/0".toList = .ok (.Number .inf) := by rfl

/-- C7: simplification is idempotent on every expression obtained from a
successful parse: simplify e succeeds, and running simplify again on its
result returns that result unchanged. -/
theorem C7_simplify_idempotent (f : Nat) (tokens : List (List Char)) (e : Expr) (p : Nat)
    (h : parse_expression f tokens = .ok (e, p)) :
    ∃ s, simplify e = .ok s ∧ simplify s = .ok s := by
  have hv := parseStep_opsValid f (.expression tokens) rfl e p h
  obtain ⟨n, hn⟩ := simplify_opsValid e hv
  exact ⟨.Number n, hn, rfl⟩

/-- Witness for C7 at the parse of the single token "1". -/
theorem C7_simplify_idempotent_witness :
    ∃ s, simplify (Expr.Number (F64.finite ⟨1, 1⟩)) = .ok s ∧ simplify s = .ok s :=
  C7_simplify_idempotent 8 [['1']] (Expr.Number (F64.finite ⟨1, 1⟩)) 1 (by rfl)

/-- C8 counterexample: the claim says each maximal consecutive run of digit
or dot characters becomes exactly one token — on "1 2" that reading (the
claim-worded tokenizer) yields the two tokens "1" and "2", but the code's
tokenize merges the digits across the whitespace into the single token
"12". -/
theorem C8_counterexample :
    tokenize ['1', ' ', '2'] = [['1', '2']] ∧
    tokenizeSpecC8 ['1', ' ', '2'] = [['1'], ['2']] ∧
    tokenize ['1', ' ', '2'] ≠ tokenizeSpecC8 ['1', ' ', '2'] := by
  have h1 : isNumChar '1' = true := by decide
  have h2 : isNumChar '2' = true := by decide
  have h3 : isNumChar ' ' = false := by decide
  have h4 : ('1').isWhitespace = false := by decide
  have h5 : ('2').isWhitespace = false := by decide
  have h6 : (' ').isWhitespace = true := by decide
  have hspec : tokenizeSpecC8 ['1', ' ', '2'] = [['1'], ['2']] := by
    simp [tokenizeSpecC8, List.takeWhile_cons, List.dropWhile_cons, h1, h2, h3, h4, h5, h6]
  refine ⟨by rfl, hspec, ?_⟩
  rw [hspec]
  decide

/-- C8, amended: tokenize always succeeds and equals the claim's
maximal-run tokenizer applied to the input with its whitespace deleted
(whitespace is skipped without terminating a pending numeral run); in
particular "1.2.3" is one unvalidated token and the empty string yields no
tokens. -/
theorem C8_amended_tokenize_runs :
    (∀ s : List Char, tokenize s = tokenizeSpecC8 (s.filter (fun c => !c.isWhitespace))) ∧
    tokenize "1.2.3".toList = ["1.2.3".toList] ∧
    tokenize "".toList = [] := by
  refine ⟨?_, by rfl, by rfl⟩
  intro s
  rw [tokenize, ← tokenizeAux_filter s []]
  have hws : ∀ c ∈ s.filter (fun c => !c.isWhitespace), c.isWhitespace = false := by
    intro c hc
    have hmem := List.of_mem_filter hc
    simpa using hmem
  rw [tokenizeAux_runs _ hws []]
  simp

/-- C9: every expression the parser produces draws its operators from the
enumerated sets (checked by `opsValid`), and consequently `simplify` never
reaches its unreachable arms: it succeeds on every parser-produced
expression. -/
theorem C9_parser_ops_enumerated (f : Nat) (tokens : List (List Char)) (e : Expr) (p : Nat)
    (h : parse_expression f tokens = .ok (e, p)) :
    opsValid e = true ∧ ∃ r, simplify e = .ok r := by
  have hv := parseStep_opsValid f (.expression tokens) rfl e p h
  obtain ⟨n, hn⟩ := simplify_opsValid e hv
  exact ⟨hv, .Number n, hn⟩

/-- Witness for C9 at the parse of "2*3". -/
theorem C9_parser_ops_enumerated_witness :
    opsValid (Expr.Binary '*' (.Number (.finite ⟨2, 1⟩)) (.Number (.finite ⟨3, 1⟩))) = true ∧
    ∃ r, simplify (Expr.Binary '*' (.Number (.finite ⟨2, 1⟩)) (.Number (.finite ⟨3, 1⟩))) = .ok r :=
  C9_parser_ops_enumerated 16 [['2'], ['*'], ['3']]
    (Expr.Binary '*' (.Number (.finite ⟨2, 1⟩)) (.Number (.finite ⟨3, 1⟩))) 3 (by rfl)

/-- C10: every token tokenize produces is a non-empty string, so the peek
at the first character of the token at the current position in
parse_add_sub, parse_mul_div and parse_unary (and their loops) never hits
the empty-token unwrap for any token sequence tokenize produced. -/
theorem C10_tokens_nonempty_peek_safe (s : List Char) :
    (∀ t ∈ tokenize s, t ≠ []) ∧
    ∀ (f pos : Nat),
      parse_add_sub f (tokenize s) pos ≠ .error .emptyTokenChars ∧
      parse_mul_div f (tokenize s) pos ≠ .error .emptyTokenChars ∧
      parse_unary f (tokenize s) pos ≠ .error .emptyTokenChars := by
  have hne : ∀ t ∈ tokenize s, t ≠ [] := tokenizeAux_ne_nil s []
  refine ⟨hne, fun f pos => ⟨?_, ?_, ?_⟩⟩
  · exact parseStep_no_emptyTok f (.addSub (tokenize s) pos) hne
  · exact parseStep_no_emptyTok f (.mulDiv (tokenize s) pos) hne
  · exact parseStep_no_emptyTok f (.unary (tokenize s) pos) hne

/-- Witness for C10 at the input "1+2". -/
theorem C10_tokens_nonempty_peek_safe_witness :
    ['1'] ≠ ([] : List Char) ∧
    parse_add_sub 8 (tokenize "1+2".toList) 0 ≠ .error .emptyTokenChars :=
  ⟨(C10_tokens_nonempty_peek_safe "1+2".toList).1 ['1'] (by decide),
   ((C10_tokens_nonempty_peek_safe "1+2".toList).2 8 0).1⟩
